import Mathlib

/-!
Verification of the arbitrary-state-machine execution core against its
natural-language specification.

The development shallowly embeds the Rust sources:
  - arbitrary-state-machine/src/main.rs  (transfer executor and block pipeline)
  - arbitrary-state-machine/src/lib.rs   (contract deploy/call executor and
    per-contract storage adapter ContractState)
  - arbitrary-state-machine/src/vm.rs    (wasm host: calldata placement and
    host ABI bindings)

The authenticated trie crate and the SHA3-256 primitive are not part of the
sources; they are modelled from the specification (sections 4.1 and 1).  A
trie root is modelled by the key-to-value map it commits to: the spec treats
hash collisions as impossible, so a root determines its map, and get is a
pure function of the root (invariant I2).  Machine bytes are Nat values;
byte-range constraints that the Rust u8 type enforces statically appear as
explicit hypotheses or checks where they matter.
-/

set_option autoImplicit false
set_option maxRecDepth 100000

/-- Byte strings: values of Rust Vec u8 / slices, as lists of Nat. -/
abbrev Bytes := List Nat

/-- Modelled from the spec (section 4.1): a trie root is represented by the
key-to-value association it commits to.  The trie crate is not under src/;
per invariant I2 a get is a pure function of the root, and the spec assumes
hash collisions are impossible, so the commitment is faithfully modelled by
the map itself. -/
abbrev Root := List (Bytes × Bytes)

/-- Node store of main.rs (StateTrie.state / GlobalState.state): a map from
node hash to node payload, modelled as an association list with unique keys
maintained by insertion. -/
abbrev Store := List (Bytes × Bytes)

/-- Trie lookup: returns the value most recently inserted at the key, or
none.  Models trie::get, which per the spec is pure in (root, key). -/
def trieGet : Root → Bytes → Option Bytes
  | [], _ => none
  | (k0, v0) :: rest, k => if k0 = k then some v0 else trieGet rest k

/-- Trie insert: produces the root committing to the updated map.  Models
the root component of trie::insert; it also serves as the insert-or-replace
operation of the HashMap node store (HashMap extend semantics). -/
def trieInsert : Root → Bytes → Bytes → Root
  | [], k, v => [(k, v)]
  | (k0, v0) :: rest, k, v =>
    if k0 = k then (k, v) :: rest else (k0, v0) :: trieInsert rest k v

/-- Root of the empty trie (trie::EMPTY_TRIE_HASH): commits to the empty
map. -/
def emptyRoot : Root := []

/-- Removes the entry at the given key from an association store, models
HashMap remove (the removed value itself is handled by the caller). -/
def assocRemove : Store → Bytes → Store
  | [], _ => []
  | (k0, v0) :: rest, k =>
    if k0 = k then rest else (k0, v0) :: assocRemove rest k

/-- Change set returned by a trie mutation: node additions and removals
(spec section 3, struct trie::Change). -/
structure Change where
  adds : List (Bytes × Bytes)
  removes : List Bytes

/-- Sequentially removes the listed node hashes from the store; removing an
absent entry models the expect panic in apply_changes (main.rs line 110,
lib.rs line 95) and yields none. -/
def applyRemoves : Store → List Bytes → Option Store
  | m, [] => some m
  | m, h :: rest =>
    match trieGet m h with
    | none => none
    | some _ => applyRemoves (assocRemove m h) rest

/-- Embeds apply_changes (main.rs lines 105-112; lib.rs lines 89-97 is the
same code): first HashMap extend with the adds, inserting each pair and
replacing any existing entry at the same key, then remove each hash in
removes with a panic (none) if it was not present. -/
def applyChanges (m : Store) (ch : Change) : Option Store :=
  applyRemoves (ch.adds.foldl (fun acc kv => trieInsert acc kv.1 kv.2) m) ch.removes

/-- Big-endian bytes of n, fixed width k (most significant first).  Helper
for the minimal big-endian encoding of a 256-bit balance. -/
def beB : Nat → Nat → Bytes
  | 0, _ => []
  | k + 1, n => (n / 256 ^ k % 256) :: beB k n

/-- Big-endian value of a byte string. -/
def beDecode (bs : Bytes) : Nat :=
  bs.foldl (fun acc b => 256 * acc + b) 0

/-- Minimal big-endian encoding of a U256 value: the 32 fixed-width bytes
with leading zero bytes stripped (empty for zero). -/
def beMinimal (n : Nat) : Bytes :=
  (beB 32 n).dropWhile (fun b => b == 0)

/-- RLP encoding of a U256 balance as produced by rlp::encode on bigint
U256: zero is the empty string (header 0x80), a single byte below 0x80 is
itself, otherwise a 0x80+len header followed by the minimal big-endian
bytes. -/
def rlpEncodeU256 (n : Nat) : Bytes :=
  if n = 0 then [128]
  else if n < 128 then [n]
  else (128 + (beMinimal n).length) :: beMinimal n

/-- Head of a byte string with default 1; used to state the no-leading-zero
canonicality check of the RLP decoder. -/
def headNZ (bs : Bytes) : Prop := bs.headD 1 ≠ 0

instance (bs : Bytes) : Decidable (headNZ bs) := by
  unfold headNZ; infer_instance

/-- RLP decoding of a U256 balance as performed by rlp::decode on bigint
U256: accepts a single byte below 0x80, the empty-string header 0x80 for
zero, or a short string of at most 32 bytes without a leading zero byte;
anything else is a decoder error (none), which the executor turns into a
panic. -/
def rlpDecodeU256 : Bytes → Option Nat
  | [] => none
  | [b] => if b < 128 then some b else if b = 128 then some 0 else none
  | b :: rest =>
    if 128 < b ∧ b ≤ 183 ∧ rest.length = b - 128 ∧ rest.length ≤ 32 ∧ headNZ rest
    then some (beDecode rest) else none

/-- Little-endian bytes of n, fixed width k.  usize::to_le_bytes in the VM
host writes leBn 8. -/
def leBn : Nat → Nat → Bytes
  | 0, _ => []
  | k + 1, n => n % 256 :: leBn k (n / 256)

/-- Little-endian value of a byte string. -/
def leDecode (bs : Bytes) : Nat :=
  bs.foldr (fun b acc => b + 256 * acc) 0

/-- Transfer transaction of main.rs (struct Tx at main.rs lines 13-18). -/
structure MainTx where
  source : Bytes
  dest : Bytes
  amount : Nat
deriving DecidableEq

/-- Block of main.rs (struct Block at main.rs lines 19-24); the state_root
is a trie root, modelled as the map it commits to. -/
structure MainBlock where
  parent_hash : Bytes
  state_root : Root
  txns : List MainTx
deriving DecidableEq

/-- Receiver half of a transfer (main.rs lines 147-159): the balance of the
receiver is read under prev_state_root (r0, first argument), not under the
working root; an absent receiver is lazily created by create_account, which
advances the working root.  Returns the working root after a possible lazy
creation together with the new receiver balance.  A decoder error is a
panic (none), as is a bigint U256 addition overflow. -/
def receiverRead (r0 curr : Root) (tx : MainTx) : Option (Root × Nat) :=
  match trieGet r0 tx.dest with
  | some rbs =>
    match rlpDecodeU256 rbs with
    | none => none
    | some rb =>
      if rb + tx.amount < 2 ^ 256 then some (curr, rb + tx.amount) else none
  | none => some (trieInsert curr tx.dest (rlpEncodeU256 tx.amount), tx.amount)

/-- One iteration of the transfer loop in execute_txs (main.rs lines
129-177).  Reads the sender balance under prev_state_root r0 (absent sender
or malformed balance is a panic, insufficient balance is a panic), computes
the new balances, then inserts the receiver update followed by the sender
update at the working root.  Change sets are node-level bookkeeping below
the map abstraction of roots and are not tracked here. -/
def txStep (r0 curr : Root) (tx : MainTx) : Option Root :=
  match trieGet r0 tx.source with
  | none => none
  | some sbs =>
    match rlpDecodeU256 sbs with
    | none => none
    | some sender_bal =>
      if sender_bal < tx.amount then none
      else
        match receiverRead r0 curr tx with
        | none => none
        | some (c1, receiver_bal) =>
          some (trieInsert
            (trieInsert c1 tx.dest (rlpEncodeU256 receiver_bal))
            tx.source (rlpEncodeU256 (sender_bal - tx.amount)))

/-- Loop of execute_txs over the transaction list, threading the working
root; a panic in any transaction aborts the whole execution. -/
def executeTxsGo (r0 : Root) : Root → List MainTx → Option Root
  | curr, [] => some curr
  | curr, tx :: rest =>
    match txStep r0 curr tx with
    | none => none
    | some c => executeTxsGo r0 c rest

/-- Embeds execute_txs (main.rs lines 125-180): the working root starts at
prev_state_root and advances across transactions, while balance reads are
made under prev_state_root throughout.  The mutated node store of the
source is determined by the change sets and is below the root-as-map
abstraction; a panic anywhere yields none and no post state. -/
def executeTxs (r0 : Root) (txs : List MainTx) : Option Root :=
  executeTxsGo r0 r0 txs

/-- Embeds execute_block (main.rs lines 184-198) together with
get_block_by_hash (main.rs lines 221-229): resolve the parent block through
the oracle (absent parent is a panic), execute the transaction list from
the parent state_root, and stamp the resulting root into the produced
block; the state_root of the incoming block is never read. -/
def executeBlock (block : MainBlock) (oracle : Bytes → Option MainBlock) :
    Option MainBlock :=
  match oracle block.parent_hash with
  | none => none
  | some parent =>
    match executeTxs parent.state_root block.txns with
    | none => none
    | some newRoot => some (MainBlock.mk block.parent_hash newRoot block.txns)

/-- Guest linear memory as a byte function; wasm memories are
zero-initialized. -/
abbrev Mem := Nat → Nat

/-- Fresh zeroed linear memory. -/
def zeroMem : Mem := fun _ => 0

/-- Initial linear memory size: 16 wasm pages of 64 KiB (vm.rs lines
135-138). -/
def initMemBytes : Nat := 16 * 65536

/-- Raw byte-range store into a memory function. -/
def writeRaw (m : Mem) (off : Nat) (bs : Bytes) : Mem :=
  fun i => if off ≤ i ∧ i < off + bs.length then bs.getD (i - off) 0 else m i

/-- wasmi Memory.write: bounds-checked against the current memory size;
an out-of-bounds write is an error (none), which vm::execute propagates. -/
def memWrite (m : Mem) (off : Nat) (bs : Bytes) : Option Mem :=
  if off + bs.length ≤ initMemBytes then some (writeRaw m off bs) else none

/-- Embeds the calldata placement of vm::execute (vm.rs lines 157-162):
write the little-endian usize length of the calldata at offset 4, then the
calldata itself at offset 36, into the fresh zeroed 16-page memory. -/
def vmPlaceCalldata (cd : Bytes) : Option Mem :=
  match memWrite zeroMem 4 (leBn 8 cd.length) with
  | none => none
  | some m1 => memWrite m1 36 cd

/-- Reads len bytes starting at off from a memory. -/
def memWindow (m : Mem) (off len : Nat) : Bytes :=
  (List.range len).map (fun i => m (off + i))

/-- Embeds keyhash_with_prefix (lib.rs lines 83-88): despite its name it is
a plain byte concatenation of the tag and the key, with no hashing. -/
def keyhashWithPfx (tag key : Bytes) : Bytes := tag ++ key

/-- The ASCII bytes of the ContractCode tag (lib.rs b"ContractCode"). -/
def contractCodeTag : Bytes :=
  [67, 111, 110, 116, 114, 97, 99, 116, 67, 111, 100, 101]

/-- Modelled from the spec (section 1): SHA3-256 is a black-box hash source
whose code is not part of this repository.  The stand-in is an executable
deterministic function producing a 32-byte digest; the development relies
only on determinism and on the 32-byte output length. -/
def sha3Bytes (bs : Bytes) : Bytes :=
  (List.range 32).map (fun i => bs.foldl (fun acc b => (acc * 131 + b + 1) % 256) (i + 1))

/-- The trie key under which a Deploy stores the contract code (lib.rs
lines 40-53): the contract address is the hash of code and calldata, and
the key is keyhash_with_prefix of the ContractCode tag and that address. -/
def hashedContractAddress (code calldata : Bytes) : Bytes :=
  keyhashWithPfx contractCodeTag (sha3Bytes (code ++ calldata))

/-- Per-contract storage adapter (lib.rs struct ContractState, lines
98-102): a contract address, a private node store, and a private trie root. -/
structure ContractState where
  address : Bytes
  database : Store
  root : Root
deriving DecidableEq

/-- Embeds ContractState::new (lib.rs lines 104-112): a fresh adapter with
the empty trie root and an empty private node store. -/
def ContractState.new (address : Bytes) : ContractState :=
  ContractState.mk address [] emptyRoot

/-- Embeds the vm::Ext get of ContractState (lib.rs lines 115-124): the
guest key is namespaced by concatenating the contract address, then looked
up in the adapter trie.  A missing key is a panic through
expect(Db get None) and a value that is not exactly 32 bytes is a panic in
copy_from_slice; both are modelled as none. -/
def ContractState.get (cs : ContractState) (key : Bytes) : Option Bytes :=
  match trieGet cs.root (keyhashWithPfx cs.address key) with
  | none => none
  | some v => if v.length = 32 then some v else none

/-- Embeds the vm::Ext set of ContractState (lib.rs lines 126-132): insert
the namespaced key into the adapter trie and advance the adapter root.  The
change set applied to the private database is node-level bookkeeping below
the root-as-map abstraction. -/
def ContractState.set (cs : ContractState) (key value : Bytes) : ContractState :=
  ContractState.mk cs.address cs.database
    (trieInsert cs.root (keyhashWithPfx cs.address key) value)

/-- A storage host call made by the guest during one VM invocation: the
env get_storage and set_storage bindings of vm.rs (lines 89-107) reduced to
their effect on the adapter (the memory transfer of the key and value bytes
is modelled separately). -/
inductive VmOp where
  | get (key : Bytes)
  | set (key value : Bytes)
deriving DecidableEq

/-- Runs the storage host calls of one guest execution against the adapter:
get delegates to the adapter get (whose missing-key panic aborts the
invocation), set delegates to the adapter set.  This abstracts vm::execute
to the trace of host calls the guest makes. -/
def runOps : ContractState → List VmOp → Option ContractState
  | cs, [] => some cs
  | cs, VmOp.get k :: rest =>
    match ContractState.get cs k with
    | none => none
    | some _ => runOps cs rest
  | cs, VmOp.set k v :: rest => runOps (ContractState.set cs k v) rest

/-- Contract transaction of lib.rs (enum Tx, lines 10-13). -/
inductive LibTx where
  | deploy (code calldata : Bytes)
  | callAndTransfer (address : Bytes) (calldata : Bytes)
deriving DecidableEq

/-- Block of lib.rs (lines 15-18): a transaction list and a state root. -/
structure LibBlock where
  txns : List LibTx
  state_root : Root
deriving DecidableEq

/-- Loop of the lib.rs execute function (lines 32-81) over the transaction
list, paired with the per-invocation guest traces.  Deploy: derive the
contract address by hashing code and calldata, insert the code into the
trie at the derived key under block.state_root discarding the resulting
root, then run the VM on a freshly created adapter and drop the adapter
when the VM returns.  CallAndTransfer: load the code from the trie under
block.state_root (absent contract is a panic), then run the VM on a freshly
created adapter and drop it.  The returned GlobalState of the source is
mutated only through node-level change sets, which lie below the
root-as-map abstraction, so the embedding returns Option Unit: some when no
panic occurs.  The source passes arguments to vm::execute inconsistently
with its signature (it does not compile as written); the embedding keeps
the control flow and the adapter lifetime, which are what the claims
concern. -/
def libExecuteGo (state_root : Root) : List LibTx → List (List VmOp) → Option Unit
  | [], _ => some ()
  | LibTx.deploy code calldata :: rest, opss =>
    let key := hashedContractAddress code calldata
    let _ins := trieInsert state_root key code
    match runOps (ContractState.new (sha3Bytes (code ++ calldata))) (opss.headD []) with
    | none => none
    | some _ => libExecuteGo state_root rest opss.tail
  | LibTx.callAndTransfer address _calldata :: rest, opss =>
    match trieGet state_root (keyhashWithPfx contractCodeTag address) with
    | none => none
    | some _wasm =>
      match runOps (ContractState.new address) (opss.headD []) with
      | none => none
      | some _ => libExecuteGo state_root rest opss.tail

/-- Embeds the lib.rs execute function (lines 32-81), abstracted over the
guest traces of the successive VM invocations. -/
def libExecute (block : LibBlock) (opss : List (List VmOp)) : Option Unit :=
  libExecuteGo block.state_root block.txns opss

theorem trieGet_insert_self (r : Root) (k v : Bytes) :
    trieGet (trieInsert r k v) k = some v := by
  induction r with
  | nil => simp [trieInsert, trieGet]
  | cons p rest ih =>
    obtain ⟨k0, v0⟩ := p
    by_cases h : k0 = k
    · simp [trieInsert, h, trieGet]
    · simp [trieInsert, h, trieGet, ih]

theorem trieGet_insert_ne (r : Root) (k v k2 : Bytes) (h : k ≠ k2) :
    trieGet (trieInsert r k v) k2 = trieGet r k2 := by
  induction r with
  | nil => simp [trieInsert, trieGet, h]
  | cons p rest ih =>
    obtain ⟨k0, v0⟩ := p
    by_cases h0 : k0 = k
    · subst h0
      simp [trieInsert, trieGet, h]
    · simp [trieInsert, h0, trieGet, ih]

theorem beB_length (k n : Nat) : (beB k n).length = k := by
  induction k generalizing n with
  | zero => rfl
  | succ k ih => simp [beB, ih]

theorem beB_foldl (k n acc : Nat) :
    (beB k n).foldl (fun a b => 256 * a + b) acc = acc * 256 ^ k + n % 256 ^ k := by
  induction k generalizing acc with
  | zero => simp [beB, Nat.mod_one]
  | succ k ih =>
    have hsplit : n % 256 ^ (k + 1) = n / 256 ^ k % 256 * 256 ^ k + n % 256 ^ k := by
      rw [pow_succ, Nat.mod_mul]
      ring
    simp only [beB, List.foldl_cons, ih]
    rw [hsplit]
    ring

theorem beDecode_beB (k n : Nat) : beDecode (beB k n) = n % 256 ^ k := by
  simpa [beDecode] using beB_foldl k n 0

theorem headNZ_dropWhile (bs : Bytes) : headNZ (bs.dropWhile (fun b => b == 0)) := by
  induction bs with
  | nil => simp [headNZ]
  | cons b t ih =>
    by_cases h : b = 0
    · simpa [List.dropWhile_cons, h] using ih
    · simp [List.dropWhile_cons, h, headNZ]

theorem beDecode_dropWhile (bs : Bytes) :
    beDecode (bs.dropWhile (fun b => b == 0)) = beDecode bs := by
  induction bs with
  | nil => rfl
  | cons b t ih =>
    by_cases h : b = 0
    · subst h
      simpa [List.dropWhile_cons, beDecode] using ih
    · simp [List.dropWhile_cons, h]

theorem length_dropWhileZ_le (l : List Nat) :
    (l.dropWhile (fun b => b == 0)).length ≤ l.length := by
  induction l with
  | nil => simp
  | cons b t ih =>
    by_cases h : b = 0
    · subst h
      simp only [List.dropWhile_cons]
      simp only [beq_self_eq_true, if_true, List.length_cons]
      omega
    · simp [List.dropWhile_cons, h]

theorem beMinimal_length_le (n : Nat) : (beMinimal n).length ≤ 32 := by
  have h := length_dropWhileZ_le (beB 32 n)
  simpa [beMinimal, beB_length] using h

theorem beDecode_beMinimal (n : Nat) : beDecode (beMinimal n) = n % 2 ^ 256 := by
  have h32 : (256 : Nat) ^ 32 = 2 ^ 256 := by norm_num
  rw [beMinimal, beDecode_dropWhile, beDecode_beB, h32]

theorem rlp_roundtrip (n : Nat) (h : n < 2 ^ 256) :
    rlpDecodeU256 (rlpEncodeU256 n) = some n := by
  by_cases h0 : n = 0
  · subst h0
    simp [rlpEncodeU256, rlpDecodeU256]
  by_cases h1 : n < 128
  · simp [rlpEncodeU256, h0, h1, rlpDecodeU256]
  have hval : beDecode (beMinimal n) = n := by
    rw [beDecode_beMinimal, Nat.mod_eq_of_lt h]
  have hlen : (beMinimal n).length ≤ 32 := beMinimal_length_le n
  have hne : beMinimal n ≠ [] := by
    intro hemp
    rw [hemp] at hval
    simp [beDecode] at hval
    omega
  obtain ⟨a, t, hat⟩ : ∃ a t, beMinimal n = a :: t := by
    cases hm : beMinimal n with
    | nil => exact absurd hm hne
    | cons a t => exact ⟨a, t, rfl⟩
  have hhead : headNZ (beMinimal n) := headNZ_dropWhile (beB 32 n)
  rw [rlpEncodeU256, if_neg h0, if_neg (by omega : ¬ n < 128), hat]
  have hlen2 : (a :: t).length ≤ 32 := by rw [← hat]; exact hlen
  have hhead2 : headNZ (a :: t) := by rw [← hat]; exact hhead
  have hcond : 128 < 128 + (a :: t).length ∧ 128 + (a :: t).length ≤ 183 ∧
      (a :: t).length = 128 + (a :: t).length - 128 ∧ (a :: t).length ≤ 32 ∧
      headNZ (a :: t) := by
    refine ⟨by simp, by omega, by omega, hlen2, hhead2⟩
  rw [show rlpDecodeU256 ((128 + (a :: t).length) :: a :: t) =
      if 128 < 128 + (a :: t).length ∧ 128 + (a :: t).length ≤ 183 ∧
         (a :: t).length = 128 + (a :: t).length - 128 ∧ (a :: t).length ≤ 32 ∧
         headNZ (a :: t)
      then some (beDecode (a :: t)) else none from rfl, if_pos hcond]
  rw [← hat, hval]

theorem leBn_length (k n : Nat) : (leBn k n).length = k := by
  induction k generalizing n with
  | zero => rfl
  | succ k ih => simp [leBn, ih]

theorem leDecode_leBn (k n : Nat) : leDecode (leBn k n) = n % 256 ^ k := by
  induction k generalizing n with
  | zero => simp [leBn, leDecode, Nat.mod_one]
  | succ k ih =>
    have hpow : (256 : Nat) ^ (k + 1) = 256 * 256 ^ k := by ring
    simp only [leBn, leDecode, List.foldr_cons]
    have ihv : (leBn k (n / 256)).foldr (fun b acc => b + 256 * acc) 0 = n / 256 % 256 ^ k := ih (n / 256)
    rw [ihv, hpow, Nat.mod_mul]

theorem leDecode_replicate_zero (k : Nat) : leDecode (List.replicate k 0) = 0 := by
  induction k with
  | zero => rfl
  | succ k ih => simp [List.replicate_succ, leDecode] at ih ⊢; omega

theorem leDecode_append_zeros (xs : Bytes) (k : Nat) :
    leDecode (xs ++ List.replicate k 0) = leDecode xs := by
  have h := leDecode_replicate_zero k
  simp only [leDecode, List.foldr_append]
  simpa [leDecode] using congrArg (fun z => xs.foldr (fun b acc => b + 256 * acc) z) h

theorem map_getD_range (L : Bytes) :
    (List.range L.length).map (fun i => L.getD i 0) = L := by
  induction L with
  | nil => simp
  | cons a t ih =>
    rw [List.length_cons, List.range_succ_eq_map]
    simp only [List.map_cons, List.map_map]
    rw [show ((fun i => (a :: t).getD i 0) ∘ Nat.succ) = (fun i => t.getD i 0) from rfl]
    simp only [List.getD_cons_zero, List.cons.injEq, true_and]
    simpa [List.getD] using ih

/-- C1: the claim states that storage writes a contract makes through the
host ABI are folded back into the executor working state when the VM
returns, so that a later invocation at the same address observes them.  The
code instead drops the per-contract adapter when vm::execute returns: every
invocation starts from a freshly constructed ContractState with the empty
trie root, so in a block whose Deploy writes a storage key and whose
following CallAndTransfer reads that same key under the same address, the
read hits the fresh empty adapter and panics, and the whole execution
aborts (none) instead of observing the written value.  The second conjunct
records that the adapter handed to every invocation is always the fresh
empty-root adapter, independent of any earlier writes. -/
theorem deploy_call_drops_adapter_state :
    libExecute
      (LibBlock.mk
        [LibTx.deploy [0] [],
         LibTx.callAndTransfer (List.replicate 32 9) []]
        [(contractCodeTag ++ List.replicate 32 9, [0])])
      [[VmOp.set (List.replicate 32 1) (List.replicate 32 2)],
       [VmOp.get (List.replicate 32 1)]] = none ∧
    ∀ a : Bytes, ContractState.new a = ContractState.mk a [] emptyRoot :=
  ⟨by decide, fun _ => rfl⟩

/-- C2: the claim states that get_storage on a key the per-contract adapter
has no entry for succeeds and writes an all-zeros result.  In the code the
adapter get of ContractState calls expect on the None lookup result and
panics; the embedded adapter get on a fresh adapter therefore yields the
panic outcome (none) for every address and key, never an all-zeros
success. -/
theorem contractstate_get_missing_key_panics (address key : Bytes) :
    ContractState.get (ContractState.new address) key = none := rfl

/-- C6 counterexample: the claim states that the contract-code trie key is
HASH applied to the ContractCode tag concatenated with the address.  The
key the code derives for code [0] with empty calldata is the plain 44-byte
concatenation of the tag and the 32-byte address, which differs from the
32-byte hash the claim describes. -/
theorem contract_key_not_hashed_cex :
    hashedContractAddress [0] [] ≠
      sha3Bytes (keyhashWithPfx contractCodeTag (sha3Bytes ([0] ++ []))) ∧
    (hashedContractAddress [0] []).length = 44 ∧
    (sha3Bytes (keyhashWithPfx contractCodeTag (sha3Bytes ([0] ++ [])))).length = 32 :=
  ⟨by decide, by decide, by decide⟩

/-- C6 amended: for every Deploy, the trie key under which the contract
code is stored equals the byte concatenation of the ContractCode tag and
the address HASH(code and calldata), with no outer hash, and the trie entry
inserted at that key stores the code bytes. -/
theorem contract_key_is_prefixed_concat (code calldata : Bytes) (r : Root) :
    hashedContractAddress code calldata =
      contractCodeTag ++ sha3Bytes (code ++ calldata) ∧
    trieGet (trieInsert r (hashedContractAddress code calldata) code)
      (hashedContractAddress code calldata) = some code :=
  ⟨rfl, trieGet_insert_self r _ code⟩

/-- C8 counterexample: the claim states that applying a change set whose
adds contain a key already present with different bytes is fatal.  On a
store holding value [0] at a key, applying an add of value [1] at the same
key succeeds (not none) and silently overwrites the entry: HashMap extend
performs no collision check. -/
theorem apply_changes_overwrite_cex :
    applyChanges [(List.replicate 32 1, [0])]
      (Change.mk [(List.replicate 32 1, [1])] []) ≠ none ∧
    applyChanges [(List.replicate 32 1, [0])]
      (Change.mk [(List.replicate 32 1, [1])] []) =
      some [(List.replicate 32 1, [1])] :=
  ⟨by decide, by decide⟩

/-- C8 amended: each entry in adds is inserted with any existing entry at
the same key silently replaced (idempotent when the bytes are identical,
and equally silent when they differ), and each hash in removes is deleted,
with deletion fatal exactly when the entry was not present. -/
theorem apply_changes_behavior :
    (∀ (m : Store) (k v : Bytes),
      applyChanges m (Change.mk [(k, v)] []) = some (trieInsert m k v)) ∧
    (∀ (m : Store) (h : Bytes), trieGet m h = none →
      applyChanges m (Change.mk [] [h]) = none) ∧
    (∀ (m : Store) (h v : Bytes), trieGet m h = some v →
      applyChanges m (Change.mk [] [h]) = some (assocRemove m h)) := by
  refine ⟨fun m k v => rfl, ?_, ?_⟩
  · intro m h hh
    simp [applyChanges, applyRemoves, hh]
  · intro m h v hh
    simp [applyChanges, applyRemoves, hh]

/-- C8 amended witness: concrete instances of the remove clauses of
apply_changes_behavior. -/
theorem apply_changes_behavior_witness :
    applyChanges [(List.replicate 32 7, [5])] (Change.mk [] [List.replicate 32 7]) =
      some (assocRemove [(List.replicate 32 7, [5])] (List.replicate 32 7)) ∧
    applyChanges ([] : Store) (Change.mk [] [List.replicate 32 7]) = none :=
  ⟨apply_changes_behavior.2.2 _ _ [5] (by decide),
   apply_changes_behavior.2.1 [] _ rfl⟩

theorem receiverRead_isSome (r0 c c2 : Root) (tx : MainTx) :
    (receiverRead r0 c tx).isSome = (receiverRead r0 c2 tx).isSome := by
  cases hdd : trieGet r0 tx.dest with
  | none => simp [receiverRead, hdd]
  | some rbs =>
    cases hdec : rlpDecodeU256 rbs with
    | none => simp [receiverRead, hdd, hdec]
    | some rb =>
      simp only [receiverRead, hdd, hdec]
      by_cases h : rb + tx.amount < 2 ^ 256
      · rw [if_pos h, if_pos h]
        rfl
      · rw [if_neg h, if_neg h]

theorem txStep_isSome (r0 c c2 : Root) (tx : MainTx) :
    (txStep r0 c tx).isSome = (txStep r0 c2 tx).isSome := by
  cases hss : trieGet r0 tx.source with
  | none => simp [txStep, hss]
  | some sbs =>
    cases hdec : rlpDecodeU256 sbs with
    | none => simp [txStep, hss, hdec]
    | some sb =>
      by_cases h : sb < tx.amount
      · simp [txStep, hss, hdec, h]
      · cases h1 : receiverRead r0 c tx with
        | none =>
          cases h2 : receiverRead r0 c2 tx with
          | none =>
            simp only [txStep, hss, hdec, h1, h2]
          | some p =>
            have hrr := receiverRead_isSome r0 c c2 tx
            rw [h1, h2] at hrr
            simp at hrr
        | some p =>
          cases h2 : receiverRead r0 c2 tx with
          | none =>
            have hrr := receiverRead_isSome r0 c c2 tx
            rw [h1, h2] at hrr
            simp at hrr
          | some q =>
            obtain ⟨c1, rb⟩ := p
            obtain ⟨c1b, rbb⟩ := q
            simp only [txStep, hss, hdec, h1, h2]
            rw [if_neg h, if_neg h]
            rfl

theorem txStep_bad_none (r0 curr : Root) (tx : MainTx)
    (h : trieGet r0 tx.source = none ∨
      ∃ bs b, trieGet r0 tx.source = some bs ∧ rlpDecodeU256 bs = some b ∧
        b < tx.amount) :
    txStep r0 curr tx = none := by
  rcases h with h | ⟨bs, b, h1, h2, h3⟩
  · simp [txStep, h]
  · simp [txStep, h1, h2, h3]

theorem executeTxsGo_bad_none (r0 : Root) (tx : MainTx)
    (hbad : trieGet r0 tx.source = none ∨
      ∃ bs b, trieGet r0 tx.source = some bs ∧ rlpDecodeU256 bs = some b ∧
        b < tx.amount) :
    ∀ (txs : List MainTx) (curr : Root), tx ∈ txs →
      executeTxsGo r0 curr txs = none := by
  intro txs
  induction txs with
  | nil => intro curr h; cases h
  | cons t rest ih =>
    intro curr hmem
    rcases List.mem_cons.mp hmem with rfl | hmem2
    · simp [executeTxsGo, txStep_bad_none r0 curr tx hbad]
    · cases hstep : txStep r0 curr t with
      | none => simp [executeTxsGo, hstep]
      | some c =>
        simp only [executeTxsGo, hstep]
        exact ih c hmem2

/-- C4: a transfer whose sender key is absent under the parent root, or
whose amount exceeds the sender balance read under the parent root,
anywhere in the transaction list, makes the whole block execution fail
fatally (none): no root is produced and nothing is committed, so the caller
keeps the parent root and its node store (execute_txs receives the store by
shared reference and works on a clone, and a panic unwinds before
returning). -/
theorem bad_transfer_aborts_block (r0 : Root) (txs : List MainTx) (tx : MainTx)
    (hmem : tx ∈ txs)
    (hbad : trieGet r0 tx.source = none ∨
      ∃ bs b, trieGet r0 tx.source = some bs ∧ rlpDecodeU256 bs = some b ∧
        b < tx.amount) :
    executeTxs r0 txs = none :=
  executeTxsGo_bad_none r0 tx hbad txs r0 hmem

/-- C4 witness: the spec scenario: from the root holding balance 100 at
H(1), transferring 101 to H(2) aborts the block. -/
theorem bad_transfer_aborts_block_witness :
    executeTxs [(List.replicate 32 1, [100])]
      [MainTx.mk (List.replicate 32 1) (List.replicate 32 2) 101] = none :=
  bad_transfer_aborts_block _ _
    (MainTx.mk (List.replicate 32 1) (List.replicate 32 2) 101)
    (List.mem_singleton.mpr rfl)
    (Or.inr ⟨[100], 100, by decide, by decide, by decide⟩)

theorem txStep_lazy (r0 c : Root) (s d : Bytes) (a b : Nat) (bs : Bytes)
    (hs : trieGet r0 s = some bs) (hdec : rlpDecodeU256 bs = some b)
    (hd : trieGet r0 d = none) (ha : a ≤ b) :
    txStep r0 c (MainTx.mk s d a) =
      some (trieInsert
        (trieInsert (trieInsert c d (rlpEncodeU256 a)) d (rlpEncodeU256 a))
        s (rlpEncodeU256 (b - a))) := by
  have hnl : ¬ b < a := Nat.not_lt.mpr ha
  simp only [txStep, receiverRead, hs, hdec, hd]
  rw [if_neg hnl]

/-- C3: balance reads of execute_txs are made against the original parent
root r0, not against the working root.  First conjunct: whether a
transaction succeeds does not depend on the working root at all (all reads
that can fail are reads under r0).  Second conjunct: in a block with two
transfers of a1 and a2 from the same sender to the same (initially absent)
receiver, both transfers see the sender starting balance b: the block
succeeds whenever a1 and a2 are each at most b (even when a1 + a2 exceeds
b), the final sender balance is b - a2 (the second write overwrites the
first instead of compounding), and the final receiver balance is a2 (the
second lazy creation overwrites the first). -/
theorem balances_read_against_parent_root :
    (∀ (r0 c c2 : Root) (tx : MainTx),
      (txStep r0 c tx).isSome = (txStep r0 c2 tx).isSome) ∧
    (∀ (r0 : Root) (s d : Bytes) (b a1 a2 : Nat),
      trieGet r0 s = some (rlpEncodeU256 b) → trieGet r0 d = none →
      a1 ≤ b → a2 ≤ b → b < 2 ^ 256 →
      ∃ r, executeTxs r0 [MainTx.mk s d a1, MainTx.mk s d a2] = some r ∧
        trieGet r s = some (rlpEncodeU256 (b - a2)) ∧
        trieGet r d = some (rlpEncodeU256 a2)) := by
  refine ⟨txStep_isSome, ?_⟩
  intro r0 s d b a1 a2 hs hd ha1 ha2 hb
  have hne : s ≠ d := by
    intro h
    rw [h, hd] at hs
    cases hs
  have hstep : ∀ (c : Root) (a : Nat), a ≤ b →
      txStep r0 c (MainTx.mk s d a) =
        some (trieInsert
          (trieInsert (trieInsert c d (rlpEncodeU256 a)) d (rlpEncodeU256 a))
          s (rlpEncodeU256 (b - a))) :=
    fun c a ha => txStep_lazy r0 c s d a b _ hs (rlp_roundtrip b hb) hd ha
  refine ⟨trieInsert (trieInsert (trieInsert
      (trieInsert (trieInsert (trieInsert r0 d (rlpEncodeU256 a1)) d (rlpEncodeU256 a1))
        s (rlpEncodeU256 (b - a1)))
      d (rlpEncodeU256 a2)) d (rlpEncodeU256 a2)) s (rlpEncodeU256 (b - a2)), ?_, ?_, ?_⟩
  · simp only [executeTxs, executeTxsGo, hstep _ _ ha1, hstep _ _ ha2]
  · exact trieGet_insert_self _ _ _
  · rw [trieGet_insert_ne _ _ _ _ hne, trieGet_insert_self]

/-- C3 witness: from a root holding balance 100 at H(1), two transfers of
60 each from H(1) to H(2) both succeed (120 exceeds 100, showing the reads
are snapshot reads of r0), leaving sender balance 40 and receiver balance
60. -/
theorem balances_read_against_parent_root_witness :
    ∃ r, executeTxs [(List.replicate 32 1, [100])]
        [MainTx.mk (List.replicate 32 1) (List.replicate 32 2) 60,
         MainTx.mk (List.replicate 32 1) (List.replicate 32 2) 60] = some r ∧
      trieGet r (List.replicate 32 1) = some (rlpEncodeU256 (100 - 60)) ∧
      trieGet r (List.replicate 32 2) = some (rlpEncodeU256 60) :=
  balances_read_against_parent_root.2 _ _ _ 100 60 60
    (by decide) (by decide) (by decide) (by decide) (by decide)

/-- C5: a transfer whose receiver key is absent under the parent root,
from a sender present under the parent root with a decodable balance at
least the amount, succeeds and lazily creates the receiver: under the
resulting working root the receiver key holds the encoding of the
transferred amount, and that encoding decodes back to the amount. -/
theorem lazy_receiver_created_with_amount (r0 curr : Root) (s d : Bytes)
    (a b : Nat) (bs : Bytes)
    (hs : trieGet r0 s = some bs) (hdec : rlpDecodeU256 bs = some b)
    (hd : trieGet r0 d = none) (hab : a ≤ b) (hb : b < 2 ^ 256) :
    ∃ r, txStep r0 curr (MainTx.mk s d a) = some r ∧
      trieGet r d = some (rlpEncodeU256 a) ∧
      rlpDecodeU256 (rlpEncodeU256 a) = some a := by
  have hne : s ≠ d := by
    intro h
    rw [h, hd] at hs
    cases hs
  refine ⟨_, txStep_lazy r0 curr s d a b bs hs hdec hd hab, ?_,
    rlp_roundtrip a (lt_of_le_of_lt hab hb)⟩
  rw [trieGet_insert_ne _ _ _ _ hne, trieGet_insert_self]

/-- C5 witness: the spec scenario: from a root holding balance 100 at
H(1), a transfer of 50 to the absent key H(3) creates the receiver with
balance 50. -/
theorem lazy_receiver_created_with_amount_witness :
    ∃ r, txStep [(List.replicate 32 1, [100])] [(List.replicate 32 1, [100])]
        (MainTx.mk (List.replicate 32 1) (List.replicate 32 3) 50) = some r ∧
      trieGet r (List.replicate 32 3) = some (rlpEncodeU256 50) ∧
      rlpDecodeU256 (rlpEncodeU256 50) = some 50 :=
  lazy_receiver_created_with_amount _ _ _ _ 50 100 [100]
    (by decide) (by decide) (by decide) (by decide) (by decide)

/-- C10: a self-transfer (source equals dest) from an account holding
balance b with amount a at most b (and no U256 overflow in the receiver
update) succeeds and leaves the account with balance b - a: the sender
update is inserted after the receiver update at the same key and
overwrites it, so the transferred amount is destroyed rather than
conserved. -/
theorem self_transfer_destroys_amount (r0 curr : Root) (s : Bytes) (a b : Nat)
    (hs : trieGet r0 s = some (rlpEncodeU256 b)) (hab : a ≤ b)
    (hov : b + a < 2 ^ 256) :
    ∃ r, txStep r0 curr (MainTx.mk s s a) = some r ∧
      trieGet r s = some (rlpEncodeU256 (b - a)) := by
  have hb : b < 2 ^ 256 := lt_of_le_of_lt (Nat.le_add_right b a) hov
  have hdec := rlp_roundtrip b hb
  have hnl : ¬ b < a := Nat.not_lt.mpr hab
  refine ⟨trieInsert (trieInsert curr s (rlpEncodeU256 (b + a)))
    s (rlpEncodeU256 (b - a)), ?_, trieGet_insert_self _ _ _⟩
  simp only [txStep, receiverRead, hs, hdec]
  rw [if_neg hnl, if_pos hov]

/-- C10 witness: a self-transfer of 30 from an account holding 100 leaves
the account with 70: the 30 is destroyed. -/
theorem self_transfer_destroys_amount_witness :
    ∃ r, txStep [(List.replicate 32 1, [100])] [(List.replicate 32 1, [100])]
        (MainTx.mk (List.replicate 32 1) (List.replicate 32 1) 30) = some r ∧
      trieGet r (List.replicate 32 1) = some (rlpEncodeU256 (100 - 30)) :=
  self_transfer_destroys_amount _ _ _ 30 100 (by decide) (by decide) (by decide)

/-- C9: the block pipeline resolves the parent through the oracle (fatal
when absent), executes the transaction list from the parent state_root, and
produces a block with the same parent_hash and txns and with state_root set
to the post-execution root; the incoming state_root is never read, so the
result is unchanged under any replacement of it. -/
theorem execute_block_pipeline (oracle : Bytes → Option MainBlock) (b : MainBlock) :
    (oracle b.parent_hash = none → executeBlock b oracle = none) ∧
    (∀ parent, oracle b.parent_hash = some parent →
      executeBlock b oracle =
        match executeTxs parent.state_root b.txns with
        | none => none
        | some r => some (MainBlock.mk b.parent_hash r b.txns)) ∧
    (∀ sr, executeBlock (MainBlock.mk b.parent_hash sr b.txns) oracle =
      executeBlock b oracle) := by
  refine ⟨?_, ?_, ?_⟩
  · intro h
    simp [executeBlock, h]
  · intro parent hp
    simp [executeBlock, hp]
  · intro sr
    cases b
    rfl

/-- C9 witness: a concrete oracle holding one parent block under hash [1];
executing a candidate block with that parent hash rewrites its state_root
to the post-execution root, and an unknown parent hash is fatal. -/
theorem execute_block_pipeline_witness :
    executeBlock (MainBlock.mk [1] []
        [MainTx.mk (List.replicate 32 1) (List.replicate 32 2) 20])
      (fun h => if h = [1] then
        some (MainBlock.mk [] [(List.replicate 32 1, [100])] []) else none) =
      (match executeTxs [(List.replicate 32 1, [100])]
          [MainTx.mk (List.replicate 32 1) (List.replicate 32 2) 20] with
      | none => none
      | some r => some (MainBlock.mk [1] r
          [MainTx.mk (List.replicate 32 1) (List.replicate 32 2) 20])) ∧
    executeBlock (MainBlock.mk [2] [] [])
      (fun h => if h = [1] then
        some (MainBlock.mk [] [(List.replicate 32 1, [100])] []) else none) = none :=
  ⟨(execute_block_pipeline _ _).2.1 (MainBlock.mk [] [(List.replicate 32 1, [100])] []) rfl,
   (execute_block_pipeline _ _).1 rfl⟩

theorem map_getD_range_pad (L : Bytes) (k : Nat) :
    (List.range (L.length + k)).map (fun i => L.getD i 0) =
      L ++ List.replicate k 0 := by
  rw [List.range_add, List.map_append, map_getD_range, List.map_map]
  congr 1
  have hlen : ((List.range k).map ((fun i => L.getD i 0) ∘ (L.length + ·))).length = k := by
    simp
  rw [List.eq_replicate_iff]
  refine ⟨hlen, ?_⟩
  intro bb hb
  simp only [List.mem_map, List.mem_range, Function.comp] at hb
  obtain ⟨i, _, hbe⟩ := hb
  rw [← hbe]
  exact List.getD_eq_default _ _ (Nat.le_add_right L.length i)

/-- C7: before the guest entrypoint runs, for calldata that fits the
initial 16-page linear memory, the 32 bytes at offsets [4, 36) read as a
little-endian integer equal the calldata length (the 8-byte usize length is
written at offset 4 and the remaining bytes stay zero), the bytes at
offsets [36, 36 + len) are the calldata itself, and the byte at offset 0 is
left untouched at zero. -/
theorem calldata_layout_in_guest_memory (cd : Bytes)
    (hfit : 36 + cd.length ≤ initMemBytes) :
    ∃ m, vmPlaceCalldata cd = some m ∧
      leDecode (memWindow m 4 32) = cd.length ∧
      (∀ i, i < cd.length → m (36 + i) = cd.getD i 0) ∧
      m 0 = 0 := by
  have hmem : initMemBytes = 1048576 := rfl
  have hLlen : (leBn 8 cd.length).length = 8 := leBn_length 8 cd.length
  have hw1 : memWrite zeroMem 4 (leBn 8 cd.length) =
      some (writeRaw zeroMem 4 (leBn 8 cd.length)) := by
    rw [memWrite, if_pos]
    rw [hLlen]
    omega
  have hw2 : memWrite (writeRaw zeroMem 4 (leBn 8 cd.length)) 36 cd =
      some (writeRaw (writeRaw zeroMem 4 (leBn 8 cd.length)) 36 cd) := by
    rw [memWrite, if_pos hfit]
  refine ⟨writeRaw (writeRaw zeroMem 4 (leBn 8 cd.length)) 36 cd, ?_, ?_, ?_, ?_⟩
  · simp only [vmPlaceCalldata, hw1, hw2]
  · have hpoint : ∀ i, i < 32 →
        (writeRaw (writeRaw zeroMem 4 (leBn 8 cd.length)) 36 cd) (4 + i) =
          (leBn 8 cd.length).getD i 0 := by
      intro i hi
      have hc1 : ¬ (36 ≤ 4 + i ∧ 4 + i < 36 + cd.length) := by omega
      simp only [writeRaw, zeroMem]
      rw [if_neg hc1]
      by_cases hi8 : i < 8
      · have hc2 : 4 ≤ 4 + i ∧ 4 + i < 4 + (leBn 8 cd.length).length :=
          ⟨by omega, by rw [hLlen]; omega⟩
        rw [if_pos hc2, show 4 + i - 4 = i from by omega]
      · have hc2 : ¬ (4 ≤ 4 + i ∧ 4 + i < 4 + (leBn 8 cd.length).length) := by
          rw [hLlen]
          omega
        rw [if_neg hc2]
        exact (List.getD_eq_default _ _ (by rw [hLlen]; omega)).symm
    have hwin : memWindow (writeRaw (writeRaw zeroMem 4 (leBn 8 cd.length)) 36 cd) 4 32 =
        leBn 8 cd.length ++ List.replicate 24 0 := by
      rw [memWindow]
      rw [List.map_congr_left (fun i hi =>
        hpoint i (List.mem_range.mp hi))]
      rw [show (32 : Nat) = (leBn 8 cd.length).length + 24 from by rw [hLlen]]
      exact map_getD_range_pad (leBn 8 cd.length) 24
    rw [hwin, leDecode_append_zeros, leDecode_leBn]
    have hlt : cd.length < 256 ^ 8 := by
      have h8 : (1048576 : Nat) < 256 ^ 8 := by norm_num
      omega
    exact Nat.mod_eq_of_lt hlt
  · intro i hi
    have hc : 36 ≤ 36 + i ∧ 36 + i < 36 + cd.length := ⟨by omega, by omega⟩
    simp only [writeRaw]
    rw [if_pos hc, show 36 + i - 36 = i from by omega]
  · simp only [writeRaw, zeroMem]
    rw [if_neg (by omega : ¬ (36 ≤ 0 ∧ 0 < 36 + cd.length)),
      if_neg (by omega : ¬ (4 ≤ 0 ∧ 0 < 4 + (leBn 8 cd.length).length))]

/-- C7 witness: placing the three-byte calldata [7, 8, 9] satisfies the
layout: length 3 in little-endian at [4, 36), the bytes at [36, 39), and
offset 0 untouched. -/
theorem calldata_layout_in_guest_memory_witness :
    36 + ([7, 8, 9] : Bytes).length ≤ initMemBytes ∧
    (∃ m, vmPlaceCalldata [7, 8, 9] = some m ∧
      leDecode (memWindow m 4 32) = ([7, 8, 9] : Bytes).length ∧
      (∀ i, i < ([7, 8, 9] : Bytes).length → m (36 + i) = ([7, 8, 9] : Bytes).getD i 0) ∧
      m 0 = 0) :=
  ⟨by decide, calldata_layout_in_guest_memory [7, 8, 9] (by decide)⟩
